import Mathlib

/-!
Shallow embedding of the hash-engine sources of the `hashes` repository
(GOST94 engine in `gost94/src/gost94.rs`, SHA-3 state in `sha3/src/state.rs`),
together with spec-level reference definitions and theorems checking the
specification's claims against the code.

Machine integers are modelled as `Nat` with explicit reduction `% 2^w`
wherever the Rust code can wrap (release-mode wrapping semantics); byte
strings are `List Nat` with entries below 256; the one `panic!` in the code
is modelled as `Option.none`.
-/

namespace HashSpec

/-! ### Byte-level primitives (the `byte_tools` helpers used by the source) -/

/-- Little-endian value of a byte list: `read_uNN_le` semantics. -/
def readLe : List Nat → Nat
  | [] => 0
  | b :: bs => b + 256 * readLe bs

/-- Little-endian serialization of `w` on `k` bytes: `write_uNN_le` semantics. -/
def leBytes : Nat → Nat → List Nat
  | 0, _ => []
  | k + 1, w => (w % 256) :: leBytes k (w / 256)

/-- `read_u32_le` on the first four bytes of a slice. -/
def read_u32_le (bs : List Nat) : Nat := readLe (bs.take 4)

/-- `read_u64_le` on the first eight bytes of a slice. -/
def read_u64_le (bs : List Nat) : Nat := readLe (bs.take 8)

/-- `u32::rotate_left` for values below `2^32`. -/
def rotl32 (v k : Nat) : Nat := ((v <<< k) % 2 ^ 32) ||| ((v % 2 ^ 32) >>> (32 - k))

namespace Gost94

/-- The S-box type: 8 substitution rows of 16 byte entries. -/
def SBox := List (List Nat)

/-- The fixed 32-byte constant `C` xored into `u` before the third round key. -/
def C : List Nat :=
  [0x00, 0xff, 0x00, 0xff, 0x00, 0xff, 0x00, 0xff,
   0xff, 0x00, 0xff, 0x00, 0xff, 0x00, 0xff, 0x00,
   0x00, 0xff, 0xff, 0x00, 0xff, 0x00, 0x00, 0xff,
   0xff, 0x00, 0x00, 0x00, 0xff, 0xff, 0x00, 0xff]

/-- `fn sbox(a: u32, s: &SBox) -> u32`: nibble-wise substitution, accumulated
with wrapping `u32` addition of each shifted table entry. -/
def sbox (v : Nat) (s : SBox) : Nat :=
  (List.range 8).foldl
    (fun acc i =>
      (acc + ((((s.getD i []).getD ((v >>> (4 * i)) % 16) 0) <<< (4 * i)) % 2 ^ 32)) % 2 ^ 32)
    0

/-- `fn g(a: u32, k: u32, s: &SBox) -> u32`: add the round key mod `2^32`,
substitute, rotate left 11. -/
def g (av kv : Nat) (s : SBox) : Nat := rotl32 (sbox ((av + kv) % 2 ^ 32) s) 11

/-- One iteration of the loop body in `encrypt`:
`let t = b ^ g(a, k[i], sbox); b = a; a = t;`. -/
def feistelStep (s : SBox) (ab : Nat × Nat) (kv : Nat) : Nat × Nat :=
  (ab.2 ^^^ g ab.1 kv s, ab.1)

/-- `fn encrypt(msg: &mut [u8], key: Block, sbox: &SBox)`: three forward passes
over the eight little-endian key words followed by one reversed pass, then the
halves are written back as `[b, a]` little-endian. -/
def encrypt (msg key : List Nat) (s : SBox) : List Nat :=
  let k := (List.range 8).map (fun i => read_u32_le (key.drop (4 * i)))
  let ab0 := (read_u32_le msg, read_u32_le (msg.drop 4))
  let ab1 := (List.range 8).foldl (fun ab i => feistelStep s ab (k.getD i 0)) ab0
  let ab2 := (List.range 8).foldl (fun ab i => feistelStep s ab (k.getD i 0)) ab1
  let ab3 := (List.range 8).foldl (fun ab i => feistelStep s ab (k.getD i 0)) ab2
  let ab4 := (List.range 8).reverse.foldl (fun ab i => feistelStep s ab (k.getD i 0)) ab3
  leBytes 4 ab4.2 ++ leBytes 4 ab4.1

/-- `fn x(a: &Block, b: &Block) -> Block`: byte-wise xor. -/
def x (m k : List Nat) : List Nat := List.zipWith (fun u v => u ^^^ v) m k

/-- `fn a(x: Block) -> Block`: rotate the low 24 bytes out, append the xor of
the two low 8-byte words. -/
def a (m : List Nat) : List Nat :=
  m.drop 8 ++ (List.range 8).map (fun i => m.getD i 0 ^^^ m.getD (i + 8) 0)

/-- `fn p(y: Block) -> Block`: the byte transposition `out[i + 4k] = y[8i + k]`. -/
def p (m : List Nat) : List Nat :=
  (List.range 32).map (fun j => m.getD (8 * (j % 4) + j / 4) 0)

/-- `fn psi(block: &mut Block)`: rotate left two bytes, then xor the five
two-byte windows at offsets 2, 4, 6, 24, 30 into the rotated-in last two
bytes (which start as bytes 0 and 1 of the input). -/
def psi (blk : List Nat) : List Nat :=
  let out := blk.drop 2 ++ blk.take 2
  out.take 30 ++
    [out.getD 30 0 ^^^ blk.getD 2 0 ^^^ blk.getD 4 0 ^^^ blk.getD 6 0 ^^^
       blk.getD 24 0 ^^^ blk.getD 30 0,
     out.getD 31 0 ^^^ blk.getD 3 0 ^^^ blk.getD 5 0 ^^^ blk.getD 7 0 ^^^
       blk.getD 25 0 ^^^ blk.getD 31 0]

/-- `struct Gost94State`. -/
structure State where
  s : SBox
  h : List Nat
  n : List Nat
  sigma : List Nat

/-- `fn shuffle(&mut self, m: &Block, s: &Block)`. -/
def shuffle (st : State) (m sb : List Nat) : State :=
  let res1 := psi^[12] sb
  let res2 := x res1 m
  let res3 := psi res2
  { st with h := psi^[61] (x st.h res3) }

/-- `fn f(&mut self, m: &Block)`: derive the four round keys, encrypt the four
8-byte slices of a copy of the hash, then shuffle. -/
def f (st : State) (m : List Nat) : State :=
  let k1 := p (x st.h m)
  let s0 := encrypt (st.h.take 8) k1 st.s
  let u1 := a st.h
  let v1 := a (a m)
  let k2 := p (x u1 v1)
  let s1 := encrypt ((st.h.drop 8).take 8) k2 st.s
  let u2 := x (a u1) C
  let v2 := a (a v1)
  let k3 := p (x u2 v2)
  let s2 := encrypt ((st.h.drop 16).take 8) k3 st.s
  let u3 := a u2
  let v3 := a (a v2)
  let k4 := p (x u3 v3)
  let s3 := encrypt ((st.h.drop 24).take 8) k4 st.s
  shuffle st m (s0 ++ s1 ++ s2 ++ s3)

/-- The loop body of `fn update_sigma`: fold over `sigma.iter_mut().zip(buf)`
carrying `over`.  In the carry branch the code sets `*a = over.0 + 1` with a
wrapping `+ 1` whose own overflow is not recorded in the carry flag. -/
def sigmaAdd : Bool → List Nat → List Nat → List Nat
  | _, [], _ => []
  | _, av :: as_, [] => av :: as_
  | c, av :: as_, bv :: bs =>
    let w := (av + bv) % 2 ^ 64
    let over := decide (2 ^ 64 ≤ av + bv)
    (if c then (w + 1) % 2 ^ 64 else w) :: sigmaAdd over as_ bs

/-- `fn update_sigma(&mut self, m: &Block)`. -/
def update_sigma (st : State) (m : List Nat) : State :=
  { st with
    sigma := sigmaAdd false st.sigma ((List.range 4).map (fun i => read_u64_le (m.drop (8 * i)))) }

/-- `fn update_n(&mut self, len: usize)`: add `(len as u64) << 3` into `n[0]`
and propagate carries; the high bits `len >> 61` are added to `n[1]` only when
`n[0]` overflows; the final overflow panics, modelled as `none`. -/
def update_n (st : State) (len : Nat) : Option State :=
  let lw := len % 2 ^ 64
  let n0 := st.n.getD 0 0
  let n1 := st.n.getD 1 0
  let n2 := st.n.getD 2 0
  let n3 := st.n.getD 3 0
  let l0 := (lw <<< 3) % 2 ^ 64
  let r0 := (n0 + l0) % 2 ^ 64
  if n0 + l0 < 2 ^ 64 then some { st with n := [r0, n1, n2, n3] }
  else
    let a1 := 1 + (lw >>> 61)
    let r1 := (n1 + a1) % 2 ^ 64
    if n1 + a1 < 2 ^ 64 then some { st with n := [r0, r1, n2, n3] }
    else
      let r2 := (n2 + 1) % 2 ^ 64
      if n2 + 1 < 2 ^ 64 then some { st with n := [r0, r1, r2, n3] }
      else
        let r3 := (n3 + 1) % 2 ^ 64
        if n3 + 1 < 2 ^ 64 then some { st with n := [r0, r1, r2, r3] }
        else none

/-- `fn process_block`: compress, then accumulate the checksum. -/
def process_block (st : State) (m : List Nat) : State := update_sigma (f st m) m

/-- `struct Gost94`: buffer, state, configured IV. -/
structure Engine where
  buffer : List Nat
  state : State
  h0 : List Nat

/-- `Gost94::new(s, h)`. -/
def new (s : SBox) (h : List Nat) : Engine :=
  { buffer := [], state := { s := s, h := h, n := [0, 0, 0, 0], sigma := [0, 0, 0, 0] }, h0 := h }

/-- Modelled from the spec: the Block Buffer component (its source is not part
of the given files).  `absorb` splits the pending bytes plus the new input into
as many full 32-byte blocks as fit, dispatching each in order; `fullBlocks`
lists those dispatched blocks. -/
def fullBlocks (l : List Nat) : List (List Nat) :=
  if _hge : 32 ≤ l.length then l.take 32 :: fullBlocks (l.drop 32) else []
termination_by l.length
decreasing_by simp only [List.length_drop]; omega

/-- Modelled from the spec: the Block Buffer retains the remainder (cursor
always strictly below the block size) as the new partial block. -/
def bufRemainder (l : List Nat) : List Nat := l.drop (32 * (l.length / 32))

/-- Modelled from the spec: `buffer.input(input, |d| state.process_block(d))` —
dispatch every completed 32-byte block to `process_block`, keep the remainder. -/
def bufferFeed (e : Engine) (input : List Nat) : Engine :=
  let all := e.buffer ++ input
  { e with
    buffer := bufRemainder all
    state := (fullBlocks all).foldl process_block e.state }

/-- `impl Input for Gost94 { fn process(&mut self, input: &[u8]) }`:
update the length counter (propagating the panic), then feed the buffer. -/
def process (e : Engine) (input : List Nat) : Option Engine :=
  match update_n e.state input.length with
  | none => none
  | some st => some (bufferFeed { e with state := st } input)

/-- `write_u64v_le` of a word list. -/
def write_u64v_le (ws : List Nat) : List Nat := (ws.map (leBytes 8)).flatten

/-- `ZeroPadding::pad` of the pending partial block. -/
def padZero (l : List Nat) : List Nat := l ++ List.replicate (32 - l.length) 0

/-- `impl FixedOutput for Gost94 { fn fixed_result(&mut self) }`: flush the
zero-padded partial block if one is pending, compress the serialized length
counter and then the serialized checksum, return the hash bytes, and reset the
engine. -/
def fixed_result (e : Engine) : List Nat × Engine :=
  let st1 := if e.buffer.length = 0 then e.state else process_block e.state (padZero e.buffer)
  let st2 := f st1 (write_u64v_le st1.n)
  let st3 := f st2 (write_u64v_le st2.sigma)
  (st3.h,
   { buffer := []
     state := { st3 with h := e.h0, n := [0, 0, 0, 0], sigma := [0, 0, 0, 0] }
     h0 := e.h0 })

/-- Run a sequence of `process` calls, propagating the length-overflow panic. -/
def runCalls : Engine → List (List Nat) → Option Engine
  | e, [] => some e
  | e, c :: cs =>
    match process e c with
    | none => none
    | some e2 => runCalls e2 cs

/-- Absorb a sequence of calls and finalize. -/
def digest (e : Engine) (calls : List (List Nat)) : Option (List Nat) :=
  (runCalls e calls).map (fun e2 => (fixed_result e2).1)

/-- A concrete S-box instance used for witnesses (any 8 x 16 table works). -/
def sboxW : SBox := List.replicate 8 (List.range 16)

/-- A concrete IV used for witnesses. -/
def ivW : List Nat := List.replicate 32 0

/-- Structural well-formedness of an engine: the buffer cursor is strictly
below the block size, the hash is 32 bytes, and the accumulators are four
64-bit words. -/
def WF (e : Engine) : Prop :=
  e.buffer.length < 32 ∧ e.state.h.length = 32 ∧
  (∃ w0 w1 w2 w3, e.state.n = [w0, w1, w2, w3] ∧
    w0 < 2 ^ 64 ∧ w1 < 2 ^ 64 ∧ w2 < 2 ^ 64 ∧ w3 < 2 ^ 64) ∧
  e.state.sigma.length = 4

/-! #### Spec-side reference definitions for the GOST94 claims -/

/-- Value of the four-word little-endian 256-bit accumulators. -/
def nVal (ws : List Nat) : Nat :=
  ws.getD 0 0 + 2 ^ 64 * ws.getD 1 0 + 2 ^ 128 * ws.getD 2 0 + 2 ^ 192 * ws.getD 3 0

/-- The four base-`2^64` digits of a value below `2^256`. -/
def nWords (v : Nat) : List Nat :=
  [v % 2 ^ 64, v / 2 ^ 64 % 2 ^ 64, v / 2 ^ 128 % 2 ^ 64, v / 2 ^ 192 % 2 ^ 64]

/-- A 32-byte block viewed as a 256-bit little-endian integer. -/
def blockVal (m : List Nat) : Nat := readLe (m.take 32)

/-- The claimed `psi` (C7): rotate the 32-byte value left by two bytes; the
last two bytes of the result combine the six two-byte windows of the original
value at byte offsets 0, 2, 4, 6, 24 and 30. -/
def psiSpec (blk : List Nat) : List Nat :=
  blk.drop 2 ++
    [blk.getD 0 0 ^^^ blk.getD 2 0 ^^^ blk.getD 4 0 ^^^ blk.getD 6 0 ^^^
       blk.getD 24 0 ^^^ blk.getD 30 0,
     blk.getD 1 0 ^^^ blk.getD 3 0 ^^^ blk.getD 5 0 ^^^ blk.getD 7 0 ^^^
       blk.getD 25 0 ^^^ blk.getD 31 0]

/-- The round-key order of the claimed 32-round Feistel network: `0..7` three
times, then once reversed. -/
def keyOrder : List Nat :=
  List.range 8 ++ List.range 8 ++ List.range 8 ++ (List.range 8).reverse

/-- One round of the amended claim (C1): the round key is added to the right
half modulo `2^32`, the sum is substituted through the S-box, rotated left 11,
xored into the left half, and the halves swap. -/
def feistelRoundAdd (s : SBox) (ab : Nat × Nat) (kv : Nat) : Nat × Nat :=
  (ab.2 ^^^ rotl32 (sbox ((ab.1 + kv) % 2 ^ 32) s) 11, ab.1)

/-- The amended claim's 32-round network: a single fold of `feistelRoundAdd`
over `keyOrder`, on the two little-endian 32-bit halves, with the eight
little-endian round-key words read from the 32-byte key. -/
def encryptFeistel (msg key : List Nat) (s : SBox) : List Nat :=
  let k := (List.range 8).map (fun i => read_u32_le (key.drop (4 * i)))
  let ab := keyOrder.foldl (fun ab i => feistelRoundAdd s ab (k.getD i 0))
    (read_u32_le msg, read_u32_le (msg.drop 4))
  leBytes 4 ab.2 ++ leBytes 4 ab.1

/-- One round as literally worded by claim C1: the right half is substituted
through the S-box, rotated left 11 bits, xored with the round key, xored into
the left half, and the halves swap. -/
def feistelRoundClaimed (s : SBox) (ab : Nat × Nat) (kv : Nat) : Nat × Nat :=
  (ab.2 ^^^ (rotl32 (sbox (ab.1 % 2 ^ 32) s) 11 ^^^ kv), ab.1)

/-- The 32-round network exactly as claim C1 words it. -/
def encryptClaimed (msg key : List Nat) (s : SBox) : List Nat :=
  let k := (List.range 8).map (fun i => read_u32_le (key.drop (4 * i)))
  let ab := keyOrder.foldl (fun ab i => feistelRoundClaimed s ab (k.getD i 0))
    (read_u32_le msg, read_u32_le (msg.drop 4))
  leBytes 4 ab.2 ++ leBytes 4 ab.1

end Gost94

namespace Sha3

/-- `sha3/src/state.rs`: 25 lanes of 64 bits. -/
def PLEN : Nat := 25

/-- Little-endian byte serialization of a lane array (`write_u64v_le`, and the
byte view of `[u64; 25]` on a little-endian machine). -/
def toLeBytes (ws : List Nat) : List Nat := (ws.map (leBytes 8)).flatten

/-- `read_u64v_le`: decode little-endian 64-bit words, one per 8 input bytes. -/
def bytesToWordsLe (l : List Nat) : List Nat :=
  if _h : l = [] then [] else readLe (l.take 8) :: bytesToWordsLe (l.drop 8)
termination_by l.length
decreasing_by
  simp only [List.length_drop]
  cases l with
  | nil => simp_all
  | cons a l => simp; omega

/-- The little-endian fast path of `absorb_block` before the permutation: view
the lane array as bytes, xor the block in byte by byte, view back as lanes. -/
def xorLanesLE (state blk : List Nat) : List Nat :=
  bytesToWordsLe (List.zipWith (fun u v => u ^^^ v) (toLeBytes state) blk ++
    (toLeBytes state).drop blk.length)

/-- The explicit big-endian path of `absorb_block` before the permutation:
unpack the block as `block.len()/8` little-endian 64-bit words and xor them
into the first lanes. -/
def xorLanesBE (state blk : List Nat) : List Nat :=
  let n := blk.length / 8
  List.zipWith (fun u v => u ^^^ v) (state.take n) (bytesToWordsLe blk) ++ state.drop n

/-- `as_bytes`: on either platform the state is presented as its little-endian
byte serialization (the aliasing fast path and the explicit `write_u64v_le`
path coincide by construction of the wire format). -/
def as_bytes (state : List Nat) : List Nat := toLeBytes state

end Sha3

/-! ## Supporting lemmas for the GOST94 engine -/

namespace Gost94

theorem f_keeps_s (st : State) (m : List Nat) : (f st m).s = st.s := by
  simp only [f, shuffle]

theorem f_keeps_n (st : State) (m : List Nat) : (f st m).n = st.n := by
  simp only [f, shuffle]

theorem f_keeps_sigma (st : State) (m : List Nat) : (f st m).sigma = st.sigma := by
  simp only [f, shuffle]

theorem process_block_keeps_n (st : State) (m : List Nat) :
    (process_block st m).n = st.n := by
  simp only [process_block, update_sigma, f_keeps_n]

theorem process_block_keeps_s (st : State) (m : List Nat) :
    (process_block st m).s = st.s := by
  simp only [process_block, update_sigma, f_keeps_s]

theorem foldl_process_block_keeps_n (blocks : List (List Nat)) (st : State) :
    (blocks.foldl process_block st).n = st.n := by
  induction blocks generalizing st with
  | nil => rfl
  | cons b bs ih => simpa [List.foldl_cons, process_block_keeps_n] using ih (process_block st b)

theorem foldl_process_block_keeps_s (blocks : List (List Nat)) (st : State) :
    (blocks.foldl process_block st).s = st.s := by
  induction blocks generalizing st with
  | nil => rfl
  | cons b bs ih => simpa [List.foldl_cons, process_block_keeps_s] using ih (process_block st b)

theorem bufferFeed_keeps_n (e : Engine) (input : List Nat) :
    (bufferFeed e input).state.n = e.state.n := by
  simp [bufferFeed, foldl_process_block_keeps_n]

theorem update_n_keeps_rest (st st' : State) (len : Nat)
    (h : update_n st len = some st') :
    st'.s = st.s ∧ st'.h = st.h ∧ st'.sigma = st.sigma := by
  simp only [update_n] at h
  split at h
  · cases h; exact ⟨rfl, rfl, rfl⟩
  · split at h
    · cases h; exact ⟨rfl, rfl, rfl⟩
    · split at h
      · cases h; exact ⟨rfl, rfl, rfl⟩
      · split at h
        · cases h; exact ⟨rfl, rfl, rfl⟩
        · cases h

/-! ## C7: the psi mixing primitive and the shuffle step -/

theorem psi_length (l : List Nat) (h : l.length = 32) : (psi l).length = 32 := by
  simp [psi, h]

theorem psiSpec_length (l : List Nat) (h : l.length = 32) : (psiSpec l).length = 32 := by
  simp [psiSpec, h]

theorem x_length (u v : List Nat) : (x u v).length = min u.length v.length := by
  simp [x]

theorem psi_eq_psiSpec (l : List Nat) (h : l.length = 32) : psi l = psiSpec l := by
  have h30 : (l.drop 2).length = 30 := by simp [h]
  have htk : (l.drop 2 ++ l.take 2).take 30 = l.drop 2 := List.take_left' h30
  have hg30 : (l.drop 2 ++ l.take 2).getD 30 0 = l.getD 0 0 := by
    rw [List.getD_eq_getElem?_getD, List.getElem?_append_right (by omega : (l.drop 2).length ≤ 30),
      h30]
    norm_num [List.getElem?_take_of_lt, List.getD_eq_getElem?_getD]
  have hg31 : (l.drop 2 ++ l.take 2).getD 31 0 = l.getD 1 0 := by
    rw [List.getD_eq_getElem?_getD, List.getElem?_append_right (by omega : (l.drop 2).length ≤ 31),
      h30]
    norm_num [List.getElem?_take_of_lt, List.getD_eq_getElem?_getD]
  simp only [psi, psiSpec]
  rw [htk, hg30, hg31]

theorem psi_iter_eq_psiSpec (k : Nat) (l : List Nat) (h : l.length = 32) :
    psi^[k] l = psiSpec^[k] l ∧ (psi^[k] l).length = 32 := by
  induction k with
  | zero => exact ⟨rfl, h⟩
  | succ k ih =>
    rw [Function.iterate_succ_apply', Function.iterate_succ_apply']
    refine ⟨?_, ?_⟩
    · rw [ih.1, ← ih.1, psi_eq_psiSpec _ ih.2]
    · exact psi_length _ ih.2

/-- C7: the GOST94 shuffle step mixes the encrypted buffer into the hash
exactly as claimed: apply psi twelve times to the encrypted buffer, xor the
original message block into it, apply psi once more, xor the result into the
hash, then apply psi 61 more times to the hash alone, where psi rotates the
32-byte value left by 2 bytes and combines the 2-byte windows of the original
value at byte offsets 0, 2, 4, 6, 24 and 30 into the last 2 bytes. -/
theorem gost94_shuffle_follows_spec (st : State) (m sb : List Nat)
    (hh : st.h.length = 32) (hm : m.length = 32) (hs : sb.length = 32) :
    (shuffle st m sb).h = psiSpec^[61] (x st.h (psiSpec (x (psiSpec^[12] sb) m))) := by
  have h12 := psi_iter_eq_psiSpec 12 sb hs
  have hx1 : (x (psi^[12] sb) m).length = 32 := by
    rw [x_length, h12.2, hm]; omega
  have hpsi1 : (psi (x (psi^[12] sb) m)).length = 32 := psi_length _ hx1
  have hx2 : (x st.h (psi (x (psi^[12] sb) m))).length = 32 := by
    rw [x_length, hh, hpsi1]; omega
  have h61 := psi_iter_eq_psiSpec 61 _ hx2
  show psi^[61] (x st.h (psi (x (psi^[12] sb) m))) = _
  rw [h61.1, psi_eq_psiSpec _ hx1, h12.1]

/-- Witness for C7 at a concrete state, block and buffer. -/
theorem gost94_shuffle_follows_spec_witness :
    (shuffle { s := sboxW, h := ivW, n := [0, 0, 0, 0], sigma := [0, 0, 0, 0] }
        (List.range 32) ((List.range 32).map (fun i => 255 - i))).h =
      psiSpec^[61] (x ivW (psiSpec (x (psiSpec^[12] ((List.range 32).map (fun i => 255 - i)))
        (List.range 32)))) :=
  gost94_shuffle_follows_spec _ _ _ (by decide) (by decide) (by decide)

/-! ## C1: the Feistel network inside the compression step -/

theorem encrypt_eq_encryptFeistel (msg key : List Nat) (s : SBox) :
    encrypt msg key s = encryptFeistel msg key s := by
  unfold encrypt encryptFeistel keyOrder
  simp only [List.foldl_append]
  rfl

/-- C1 (amended): in the compression step `f`, each of the four derived round
keys, read as eight little-endian 32-bit words, encrypts its 8-byte slice of
the working buffer (a copy of the hash) with the 32-round Feistel network that
at each round adds the round key to the right half modulo `2^32`, substitutes
through the S-box by 4-bit nibbles, rotates left 11 bits, xors into the left
half and swaps; the round keys are used in order 0..7 three times and reversed
for the final 8 rounds. -/
theorem gost94_f_uses_feistel (st : State) (m : List Nat) :
    f st m = shuffle st m
      (encryptFeistel (st.h.take 8) (p (x st.h m)) st.s ++
       encryptFeistel ((st.h.drop 8).take 8) (p (x (a st.h) (a (a m)))) st.s ++
       encryptFeistel ((st.h.drop 16).take 8)
         (p (x (x (a (a st.h)) C) (a (a (a (a m)))))) st.s ++
       encryptFeistel ((st.h.drop 24).take 8)
         (p (x (a (x (a (a st.h)) C)) (a (a (a (a (a (a m)))))))) st.s) := by
  simp only [f, encrypt_eq_encryptFeistel, List.append_assoc]

/-- Counterexample to C1 as stated: the source's round combines the key by
wrapping addition before the S-box, not by xor after the rotation; on a
concrete message, key and S-box the two networks disagree. -/
theorem gost94_encrypt_ne_claimed_round :
    encrypt [1, 2, 3, 4, 5, 6, 7, 8] (List.range 32) sboxW ≠
      encryptClaimed [1, 2, 3, 4, 5, 6, 7, 8] (List.range 32) sboxW := by
  decide

/-! ## C2: the checksum accumulator drops a chained carry -/

/-- C2 (code bug): absorbing the block with first word `2^64 - 1` and then the
block with words `1` and `2^64 - 1` leaves the checksum accumulator at zero,
while the sum of the two blocks as 256-bit little-endian integers is `2^128`:
in the carry branch of `update_sigma` the wrapping `over.0 + 1` overflows
without being recorded in the carry flag (in a debug build this `+ 1` panics),
so the accumulator is not the sum of the absorbed blocks modulo `2^256`. -/
theorem gost94_update_sigma_drops_carry :
    (update_sigma (update_sigma
          { s := sboxW, h := ivW, n := [0, 0, 0, 0], sigma := [0, 0, 0, 0] }
          (List.replicate 8 255 ++ List.replicate 24 0))
        ([1] ++ List.replicate 7 0 ++ List.replicate 8 255 ++ List.replicate 16 0)).sigma =
      [0, 0, 0, 0] ∧
    (blockVal (List.replicate 8 255 ++ List.replicate 24 0) +
        blockVal ([1] ++ List.replicate 7 0 ++ List.replicate 8 255 ++ List.replicate 16 0)) %
        2 ^ 256 = 2 ^ 128 ∧
    nVal [0, 0, 0, 0] ≠ 2 ^ 128 := by
  refine ⟨by decide, by decide, by decide⟩

/-! ## C10: the compression function mutates only the hash -/

/-- C10: `f` leaves the length counter and the checksum unchanged; every data
block processed through `process_block` adds its words into the pre-existing
checksum; and the digest compresses the two synthetic blocks — serialized from
the post-data accumulators — through `f` alone, so neither synthetic block is
added into the length or checksum accumulators. -/
theorem gost94_f_frame (e : Engine) :
    (∀ st m, (f st m).n = st.n ∧ (f st m).sigma = st.sigma) ∧
    (∀ st m, (process_block st m).sigma =
      sigmaAdd false st.sigma ((List.range 4).map (fun i => read_u64_le (m.drop (8 * i))))) ∧
    ((fixed_result e).1 =
      (f (f (if e.buffer.length = 0 then e.state else process_block e.state (padZero e.buffer))
            (write_u64v_le
              (if e.buffer.length = 0 then e.state
               else process_block e.state (padZero e.buffer)).n))
          (write_u64v_le
            (if e.buffer.length = 0 then e.state
             else process_block e.state (padZero e.buffer)).sigma)).h) := by
  refine ⟨fun st m => ⟨f_keeps_n st m, f_keeps_sigma st m⟩, ?_, ?_⟩
  · intro st m
    simp only [process_block, update_sigma, f_keeps_sigma]
  · simp only [fixed_result, f_keeps_sigma]

/-! ## C8: finalize resets the engine to its construction state -/

/-- C8: after `fixed_result` the engine equals a freshly constructed engine
with the same S-box and IV — hash back at the IV, accumulators zero, buffer
empty — so any subsequent absorb/finalize cycle gives the same digest as on a
new engine. -/
theorem gost94_reset_equals_new (e : Engine) :
    (fixed_result e).2 = new e.state.s e.h0 ∧
    ∀ calls, digest (fixed_result e).2 calls = digest (new e.state.s e.h0) calls := by
  have h2 : (fixed_result e).2 = new e.state.s e.h0 := by
    by_cases hb : e.buffer.length = 0 <;>
      simp [fixed_result, new, hb, f_keeps_s, process_block_keeps_s]
  exact ⟨h2, fun calls => by rw [h2]⟩

/-! ## C6: a 32-byte message needs no padding block -/

/-- C6: on a message of exactly 32 bytes, absorption dispatches exactly one
data block (leaving the buffer empty), and finalize on an empty buffer adds no
zero-padded block: the digest is exactly one `process_block` plus the two
synthetic `f` compressions of the serialized length and checksum. -/
theorem gost94_one_block_no_padding (s : SBox) (iv m : List Nat) (hm : m.length = 32) :
    runCalls (new s iv) [m] =
      some { buffer := []
             state := process_block { s := s, h := iv, n := [256, 0, 0, 0], sigma := [0, 0, 0, 0] } m
             h0 := iv } ∧
    ∀ e : Engine, e.buffer = [] →
      (fixed_result e).1 =
        (f (f e.state (write_u64v_le e.state.n))
            (write_u64v_le (f e.state (write_u64v_le e.state.n)).sigma)).h := by
  have htake : m.take 32 = m := by rw [← hm]; exact List.take_length m
  have hdrop : m.drop 32 = [] := by rw [← hm]; exact List.drop_length m
  constructor
  · have hup : update_n { s := s, h := iv, n := [0, 0, 0, 0], sigma := [0, 0, 0, 0] } m.length =
        some { s := s, h := iv, n := [256, 0, 0, 0], sigma := [0, 0, 0, 0] } := by
      rw [hm]
      simp only [update_n, List.getD_cons_zero, List.getD_cons_succ]
      norm_num [Nat.shiftLeft_eq]
    have hfb : fullBlocks m = [m] := by
      rw [fullBlocks, dif_pos (by omega), htake, hdrop, fullBlocks]
      simp
    have hrem : bufRemainder m = [] := by
      unfold bufRemainder
      rw [hm]
      norm_num
      omega
    simp only [runCalls, process, new, hup, bufferFeed, List.nil_append, hfb, hrem,
      List.foldl_cons, List.foldl_nil]
  · intro e hb
    simp [fixed_result, hb]

/-- Witness for C6 at a concrete 32-byte message. -/
theorem gost94_one_block_no_padding_witness :
    runCalls (new sboxW ivW) [List.range 32] =
      some { buffer := []
             state := process_block
               { s := sboxW, h := ivW, n := [256, 0, 0, 0], sigma := [0, 0, 0, 0] }
               (List.range 32)
             h0 := ivW } ∧
    ∀ e : Engine, e.buffer = [] →
      (fixed_result e).1 =
        (f (f e.state (write_u64v_le e.state.n))
            (write_u64v_le (f e.state (write_u64v_le e.state.n)).sigma)).h :=
  gost94_one_block_no_padding sboxW ivW (List.range 32) (by decide)

/-! ## Characterization of the length counter update for small calls -/

theorem update_n_lt (st : State) (w0 w1 w2 w3 len : Nat)
    (hn : st.n = [w0, w1, w2, w3])
    (hb0 : w0 < 2 ^ 64) (hb1 : w1 < 2 ^ 64) (hb2 : w2 < 2 ^ 64) (hb3 : w3 < 2 ^ 64)
    (hlen : len < 2 ^ 61)
    (hlt : nVal [w0, w1, w2, w3] + 8 * len < 2 ^ 256) :
    update_n st len = some { st with n := nWords (nVal [w0, w1, w2, w3] + 8 * len) } := by
  have hlw : len % 2 ^ 64 = len := Nat.mod_eq_of_lt (by omega)
  have h8 : (len % 2 ^ 64) <<< 3 % 2 ^ 64 = 8 * len := by
    rw [hlw, Nat.shiftLeft_eq]
    have h1 : len * 2 ^ 3 = 8 * len := by ring
    rw [h1]
    exact Nat.mod_eq_of_lt (by omega)
  have hsh : (len % 2 ^ 64) >>> 61 = 0 := by
    rw [hlw, Nat.shiftRight_eq_div_pow]
    exact Nat.div_eq_of_lt hlen
  simp only [nVal, List.getD_cons_zero, List.getD_cons_succ] at hlt ⊢
  simp only [update_n, hn, List.getD_cons_zero, List.getD_cons_succ, h8, hsh, Nat.add_zero]
  by_cases h0 : w0 + 8 * len < 2 ^ 64
  · rw [if_pos h0]
    simp only [Option.some.injEq, State.mk.injEq, nWords, List.cons.injEq, and_true, true_and]
    refine ⟨?_, ?_, ?_, ?_⟩ <;> omega
  · rw [if_neg h0]
    by_cases h1 : w1 + 1 < 2 ^ 64
    · rw [if_pos h1]
      simp only [Option.some.injEq, State.mk.injEq, nWords, List.cons.injEq, and_true, true_and]
      refine ⟨?_, ?_, ?_, ?_⟩ <;> omega
    · rw [if_neg h1]
      by_cases h2 : w2 + 1 < 2 ^ 64
      · rw [if_pos h2]
        simp only [Option.some.injEq, State.mk.injEq, nWords, List.cons.injEq, and_true, true_and]
        refine ⟨?_, ?_, ?_, ?_⟩ <;> omega
      · rw [if_neg h2]
        by_cases h3 : w3 + 1 < 2 ^ 64
        · rw [if_pos h3]
          simp only [Option.some.injEq, State.mk.injEq, nWords, List.cons.injEq, and_true, true_and]
          refine ⟨?_, ?_, ?_, ?_⟩ <;> omega
        · exact absurd hlt (by omega)

theorem update_n_ge (st : State) (w0 w1 w2 w3 len : Nat)
    (hn : st.n = [w0, w1, w2, w3])
    (hb0 : w0 < 2 ^ 64) (hb1 : w1 < 2 ^ 64) (hb2 : w2 < 2 ^ 64) (hb3 : w3 < 2 ^ 64)
    (hlen : len < 2 ^ 61)
    (hge : 2 ^ 256 ≤ nVal [w0, w1, w2, w3] + 8 * len) :
    update_n st len = none := by
  have hlw : len % 2 ^ 64 = len := Nat.mod_eq_of_lt (by omega)
  have h8 : (len % 2 ^ 64) <<< 3 % 2 ^ 64 = 8 * len := by
    rw [hlw, Nat.shiftLeft_eq]
    have h1 : len * 2 ^ 3 = 8 * len := by ring
    rw [h1]
    exact Nat.mod_eq_of_lt (by omega)
  have hsh : (len % 2 ^ 64) >>> 61 = 0 := by
    rw [hlw, Nat.shiftRight_eq_div_pow]
    exact Nat.div_eq_of_lt hlen
  simp only [nVal, List.getD_cons_zero, List.getD_cons_succ] at hge
  simp only [update_n, hn, List.getD_cons_zero, List.getD_cons_succ, h8, hsh, Nat.add_zero]
  rw [if_neg (by omega), if_neg (by omega), if_neg (by omega), if_neg (by omega)]

theorem nWords_length (v : Nat) : (nWords v).length = 4 := rfl

theorem nWords_bounds (v : Nat) :
    ∃ w0 w1 w2 w3, nWords v = [w0, w1, w2, w3] ∧
      w0 < 2 ^ 64 ∧ w1 < 2 ^ 64 ∧ w2 < 2 ^ 64 ∧ w3 < 2 ^ 64 := by
  refine ⟨_, _, _, _, rfl, ?_, ?_, ?_, ?_⟩ <;> exact Nat.mod_lt _ (by norm_num)

theorem nVal_nWords (v : Nat) (h : v < 2 ^ 256) : nVal (nWords v) = v := by
  simp only [nVal, nWords, List.getD_cons_zero, List.getD_cons_succ]
  omega

theorem nWords_nVal (w0 w1 w2 w3 : Nat)
    (hb0 : w0 < 2 ^ 64) (hb1 : w1 < 2 ^ 64) (hb2 : w2 < 2 ^ 64) (hb3 : w3 < 2 ^ 64) :
    nWords (nVal [w0, w1, w2, w3]) = [w0, w1, w2, w3] := by
  simp only [nVal, nWords, List.getD_cons_zero, List.getD_cons_succ, List.cons.injEq, and_true]
  refine ⟨?_, ?_, ?_, ?_⟩ <;> omega

/-! ## Length bookkeeping -/

theorem leBytes_length (k : Nat) : ∀ w, (leBytes k w).length = k := by
  induction k with
  | zero => intro w; rfl
  | succ k ih => intro w; simp [leBytes, ih]

theorem encrypt_length (msg key : List Nat) (s : SBox) : (encrypt msg key s).length = 8 := by
  simp [encrypt, leBytes_length]

theorem write_u64v_le_length (ws : List Nat) : (write_u64v_le ws).length = 8 * ws.length := by
  induction ws with
  | nil => rfl
  | cons w ws ih =>
    simp only [write_u64v_le, List.map_cons, List.flatten_cons, List.length_append,
      leBytes_length, List.length_cons]
    have hrec : ((ws.map (leBytes 8)).flatten).length = 8 * ws.length := ih
    omega

theorem shuffle_h_length (st : State) (m sb : List Nat)
    (hh : st.h.length = 32) (hm : m.length = 32) (hs : sb.length = 32) :
    (shuffle st m sb).h.length = 32 := by
  have h12 := (psi_iter_eq_psiSpec 12 sb hs).2
  have hx1 : (x (psi^[12] sb) m).length = 32 := by rw [x_length, h12, hm]; omega
  have hp1 := psi_length _ hx1
  have hx2 : (x st.h (psi (x (psi^[12] sb) m))).length = 32 := by
    rw [x_length, hh, hp1]; omega
  exact (psi_iter_eq_psiSpec 61 _ hx2).2

theorem f_h_length (st : State) (m : List Nat)
    (hh : st.h.length = 32) (hm : m.length = 32) : (f st m).h.length = 32 := by
  simp only [f]
  refine shuffle_h_length _ _ _ hh hm ?_
  simp [encrypt_length]

theorem sigmaAdd_length (as_ : List Nat) : ∀ (c : Bool) (bs : List Nat),
    (sigmaAdd c as_ bs).length = as_.length := by
  induction as_ with
  | nil => intro c bs; cases bs <;> rfl
  | cons av as_ ih =>
    intro c bs
    cases bs with
    | nil => rfl
    | cons bv bs => simp [sigmaAdd, ih]

theorem process_block_sigma_length (st : State) (m : List Nat) :
    (process_block st m).sigma.length = st.sigma.length := by
  have h1 : (process_block st m).sigma.length = (f st m).sigma.length := by
    simp [process_block, update_sigma, sigmaAdd_length]
  rw [h1, f_keeps_sigma]

theorem process_block_h_length (st : State) (m : List Nat)
    (hh : st.h.length = 32) (hm : m.length = 32) :
    (process_block st m).h.length = 32 := by
  have h1 : (process_block st m).h = (f st m).h := by
    simp [process_block, update_sigma]
  rw [h1]
  exact f_h_length st m hh hm

theorem foldl_process_block_lengths (blocks : List (List Nat)) :
    ∀ st : State, (∀ b ∈ blocks, b.length = 32) → st.h.length = 32 →
    (blocks.foldl process_block st).h.length = 32 ∧
    (blocks.foldl process_block st).sigma.length = st.sigma.length := by
  induction blocks with
  | nil => intro st _ hh; exact ⟨hh, rfl⟩
  | cons b bs ih =>
    intro st hall hh
    have hb : b.length = 32 := hall b (List.mem_cons_self b bs)
    have hrest : ∀ b' ∈ bs, b'.length = 32 := fun b' hb' => hall b' (List.mem_cons_of_mem b hb')
    rw [List.foldl_cons]
    have h2 := ih (process_block st b) hrest (process_block_h_length st b hh hb)
    exact ⟨h2.1, by rw [h2.2, process_block_sigma_length]⟩

theorem fullBlocks_mem_length (l : List Nat) : ∀ b ∈ fullBlocks l, b.length = 32 := by
  rw [fullBlocks]
  split
  case isTrue hc =>
    intro b hb
    rcases List.mem_cons.mp hb with rfl | hb'
    · simp only [List.length_take]; omega
    · exact fullBlocks_mem_length (l.drop 32) b hb'
  case isFalse hc => intro b hb; simp at hb
termination_by l.length
decreasing_by simp only [List.length_drop]; omega

theorem bufRemainder_length (l : List Nat) : (bufRemainder l).length = l.length % 32 := by
  simp only [bufRemainder, List.length_drop]
  omega

theorem padZero_length (l : List Nat) (h : l.length ≤ 32) : (padZero l).length = 32 := by
  simp only [padZero, List.length_append, List.length_replicate]
  omega

/-! ## Running absorb calls: well-formedness and the length counter value -/

theorem bufferFeed_WF (e : Engine) (input : List Nat) (_hbuf : e.buffer.length < 32)
    (hh : e.state.h.length = 32) (hsig : e.state.sigma.length = 4) :
    (bufferFeed e input).buffer.length < 32 ∧
    (bufferFeed e input).state.h.length = 32 ∧
    (bufferFeed e input).state.sigma.length = 4 ∧
    (bufferFeed e input).state.n = e.state.n := by
  have hlen := foldl_process_block_lengths (fullBlocks (e.buffer ++ input)) e.state
    (fullBlocks_mem_length _) hh
  refine ⟨?_, ?_, ?_, ?_⟩
  · simp only [bufferFeed]
    rw [bufRemainder_length]
    omega
  · exact hlen.1
  · simp only [bufferFeed]
    rw [hlen.2, hsig]
  · exact bufferFeed_keeps_n e input

theorem runCalls_small_some (calls : List (List Nat)) :
    ∀ e : Engine, WF e →
      (∀ c ∈ calls, c.length < 2 ^ 61) →
      nVal e.state.n + 8 * (calls.map List.length).sum < 2 ^ 256 →
      ∃ e', runCalls e calls = some e' ∧ WF e' ∧
        nVal e'.state.n = nVal e.state.n + 8 * (calls.map List.length).sum ∧
        e'.state.n = nWords (nVal e.state.n + 8 * (calls.map List.length).sum) := by
  induction calls with
  | nil =>
    intro e hwf _ _
    obtain ⟨hbuf, hh, ⟨w0, w1, w2, w3, hn, hb0, hb1, hb2, hb3⟩, hsig⟩ := hwf
    refine ⟨e, rfl, ⟨hbuf, hh, ⟨w0, w1, w2, w3, hn, hb0, hb1, hb2, hb3⟩, hsig⟩, by simp, ?_⟩
    rw [List.map_nil, List.sum_nil, Nat.mul_zero, Nat.add_zero, hn, nWords_nVal _ _ _ _ hb0 hb1 hb2 hb3]
  | cons c cs ih =>
    intro e hwf hsmall hlt
    obtain ⟨hbuf, hh, ⟨w0, w1, w2, w3, hn, hb0, hb1, hb2, hb3⟩, hsig⟩ := hwf
    have hc : c.length < 2 ^ 61 := hsmall c (List.mem_cons_self c cs)
    have hcs : ∀ c' ∈ cs, c'.length < 2 ^ 61 := fun c' h' => hsmall c' (List.mem_cons_of_mem c h')
    have hsum : (List.map List.length (c :: cs)).sum = c.length + (cs.map List.length).sum := by
      simp
    have hV1 : nVal e.state.n + 8 * c.length < 2 ^ 256 := by rw [hsum] at hlt; omega
    have hup := update_n_lt e.state w0 w1 w2 w3 c.length hn hb0 hb1 hb2 hb3 hc
      (by rw [← hn]; exact hV1)
    rw [← hn] at hup
    set e1 := bufferFeed { e with state := { e.state with n := nWords (nVal e.state.n + 8 * c.length) } } c with he1
    have hwf1 := bufferFeed_WF
      { e with state := { e.state with n := nWords (nVal e.state.n + 8 * c.length) } } c hbuf hh hsig
    obtain ⟨v0, v1, v2, v3, hvn, hv0, hv1, hv2, hv3⟩ := nWords_bounds (nVal e.state.n + 8 * c.length)
    have he1n : e1.state.n = nWords (nVal e.state.n + 8 * c.length) := hwf1.2.2.2
    have hwfe1 : WF e1 := by
      refine ⟨hwf1.1, hwf1.2.1, ⟨v0, v1, v2, v3, ?_, hv0, hv1, hv2, hv3⟩, hwf1.2.2.1⟩
      rw [he1n, hvn]
    have hval1 : nVal e1.state.n = nVal e.state.n + 8 * c.length := by
      rw [he1n, nVal_nWords _ hV1]
    have hlt1 : nVal e1.state.n + 8 * (cs.map List.length).sum < 2 ^ 256 := by
      rw [hval1]
      rw [hsum] at hlt
      omega
    obtain ⟨e', hrun, hwf', hval', hwords'⟩ := ih e1 hwfe1 hcs hlt1
    refine ⟨e', ?_, hwf', ?_, ?_⟩
    · simp only [runCalls, process, hup]
      exact hrun
    · rw [hval', hval1, hsum]; ring
    · rw [hwords', hval1, hsum]
      have harith : nVal e.state.n + 8 * c.length + 8 * (cs.map List.length).sum =
          nVal e.state.n + 8 * (c.length + (cs.map List.length).sum) := by ring
      rw [harith]

theorem runCalls_overflow (calls : List (List Nat)) :
    ∀ e : Engine, WF e →
      (∀ c ∈ calls, c.length < 2 ^ 61) →
      2 ^ 256 ≤ nVal e.state.n + 8 * (calls.map List.length).sum →
      runCalls e calls = none := by
  induction calls with
  | nil =>
    intro e hwf _ hge
    obtain ⟨_, _, ⟨w0, w1, w2, w3, hn, hb0, hb1, hb2, hb3⟩, _⟩ := hwf
    rw [hn] at hge
    simp only [List.map_nil, List.sum_nil, Nat.mul_zero, Nat.add_zero] at hge
    exact absurd hge (by simp only [nVal, List.getD_cons_zero, List.getD_cons_succ]; omega)
  | cons c cs ih =>
    intro e hwf hsmall hge
    obtain ⟨hbuf, hh, ⟨w0, w1, w2, w3, hn, hb0, hb1, hb2, hb3⟩, hsig⟩ := hwf
    have hc : c.length < 2 ^ 61 := hsmall c (List.mem_cons_self c cs)
    have hcs : ∀ c' ∈ cs, c'.length < 2 ^ 61 := fun c' h' => hsmall c' (List.mem_cons_of_mem c h')
    have hsum : (List.map List.length (c :: cs)).sum = c.length + (cs.map List.length).sum := by
      simp
    by_cases hcross : 2 ^ 256 ≤ nVal e.state.n + 8 * c.length
    · have hup := update_n_ge e.state w0 w1 w2 w3 c.length hn hb0 hb1 hb2 hb3 hc
        (by rw [← hn]; exact hcross)
      simp only [runCalls, process, hup]
    · push_neg at hcross
      have hup := update_n_lt e.state w0 w1 w2 w3 c.length hn hb0 hb1 hb2 hb3 hc
        (by rw [← hn]; exact hcross)
      rw [← hn] at hup
      have hwf1 := bufferFeed_WF
        { e with state := { e.state with n := nWords (nVal e.state.n + 8 * c.length) } } c hbuf hh hsig
      obtain ⟨v0, v1, v2, v3, hvn, hv0, hv1, hv2, hv3⟩ := nWords_bounds (nVal e.state.n + 8 * c.length)
      set e1 := bufferFeed { e with state := { e.state with n := nWords (nVal e.state.n + 8 * c.length) } } c with he1
      have he1n : e1.state.n = nWords (nVal e.state.n + 8 * c.length) := hwf1.2.2.2
      have hwfe1 : WF e1 := by
        refine ⟨hwf1.1, hwf1.2.1, ⟨v0, v1, v2, v3, ?_, hv0, hv1, hv2, hv3⟩, hwf1.2.2.1⟩
        rw [he1n, hvn]
      have hval1 : nVal e1.state.n = nVal e.state.n + 8 * c.length := by
        rw [he1n, nVal_nWords _ hcross]
      have hge1 : 2 ^ 256 ≤ nVal e1.state.n + 8 * (cs.map List.length).sum := by
        rw [hval1]
        rw [hsum] at hge
        omega
      simp only [runCalls, process, hup]
      exact ih e1 hwfe1 hcs hge1

theorem WF_new (s : SBox) (iv : List Nat) (hiv : iv.length = 32) : WF (new s iv) := by
  refine ⟨by simp [new], by simp [new, hiv], ⟨0, 0, 0, 0, by simp [new], ?_, ?_, ?_, ?_⟩, by simp [new]⟩
    <;> norm_num

theorem nVal_new (s : SBox) (iv : List Nat) : nVal (new s iv).state.n = 0 := by
  simp [new, nVal]

theorem fixed_result_length (e : Engine) (hwf : WF e) : (fixed_result e).1.length = 32 := by
  obtain ⟨hbuf, hh, ⟨w0, w1, w2, w3, hn, hb0, hb1, hb2, hb3⟩, hsig⟩ := hwf
  have hst1 : ∀ st1 : State, st1.h.length = 32 → st1.n = [w0, w1, w2, w3] →
      st1.sigma.length = 4 →
      (f (f st1 (write_u64v_le st1.n)) (write_u64v_le (f st1 (write_u64v_le st1.n)).sigma)).h.length
        = 32 := by
    intro st1 h1 h2 h3
    have hnb : (write_u64v_le st1.n).length = 32 := by
      rw [write_u64v_le_length, h2]
      rfl
    have hf1 : (f st1 (write_u64v_le st1.n)).h.length = 32 := f_h_length _ _ h1 hnb
    have hsb : (write_u64v_le (f st1 (write_u64v_le st1.n)).sigma).length = 32 := by
      rw [write_u64v_le_length, f_keeps_sigma, h3]
    exact f_h_length _ _ hf1 hsb
  by_cases hb : e.buffer.length = 0
  · simp only [fixed_result, hb, if_pos]
    exact hst1 e.state hh hn hsig
  · simp only [fixed_result, if_neg hb]
    refine hst1 _ ?_ ?_ ?_
    · exact process_block_h_length _ _ hh (padZero_length _ (by omega))
    · rw [process_block_keeps_n, hn]
    · rw [process_block_sigma_length, hsig]

/-! ## C3: the length accumulator counts message bits -/

/-- C3 (amended): for every sequence of absorb calls, each shorter than `2^61`
bytes, whose total bit count is below `2^256`, the four-word length counter of
a fresh engine ends up holding exactly the total number of message bits, as an
unsigned 256-bit little-endian integer. -/
theorem gost94_n_counts_bits (s : SBox) (iv : List Nat) (calls : List (List Nat))
    (hiv : iv.length = 32)
    (hsmall : ∀ c ∈ calls, c.length < 2 ^ 61)
    (hlt : 8 * (calls.map List.length).sum < 2 ^ 256) :
    ∃ e', runCalls (new s iv) calls = some e' ∧
      e'.state.n = nWords (8 * (calls.map List.length).sum) ∧
      nVal e'.state.n = 8 * (calls.map List.length).sum := by
  obtain ⟨e', hrun, _, hval, hwords⟩ := runCalls_small_some calls (new s iv)
    (WF_new s iv hiv) hsmall (by rw [nVal_new]; omega)
  rw [nVal_new, Nat.zero_add] at hval hwords
  exact ⟨e', hrun, hwords, hval⟩

/-- Witness for C3 at two concrete calls totalling 5 bytes. -/
theorem gost94_n_counts_bits_witness :
    ∃ e', runCalls (new sboxW ivW) [[0, 0, 0], [1, 2]] = some e' ∧
      e'.state.n = nWords (8 * ([[0, 0, 0], [1, 2]].map List.length).sum) ∧
      nVal e'.state.n = 8 * ([[0, 0, 0], [1, 2]].map List.length).sum :=
  gost94_n_counts_bits sboxW ivW [[0, 0, 0], [1, 2]] (by decide) (by decide) (by decide)

theorem process_some_of_update (e : Engine) (st : State) (input : List Nat)
    (h : update_n e.state input.length = some st) :
    process e input = some (bufferFeed { e with state := st } input) := by
  unfold process
  rw [h]

theorem runCalls_cons_some (e e1 : Engine) (c : List Nat) (cs : List (List Nat))
    (h : process e c = some e1) : runCalls e (c :: cs) = runCalls e1 cs := by
  simp only [runCalls, h]

/-- Counterexample to C3 as stated: a single absorb call of `2^61` zero bytes
contributes `2^64` message bits, but `update_n` adds `(len << 3)` only modulo
`2^64` and consults the high bits `len >> 61` only when the low word carries,
so the counter stays at zero. -/
theorem gost94_n_drops_high_bits :
    (runCalls (new sboxW ivW) [List.replicate (2 ^ 61) 0]).map (fun e => e.state.n) =
      some [0, 0, 0, 0] ∧
    8 * (List.replicate (2 ^ 61) (0 : Nat)).length = 2 ^ 64 ∧
    nVal [0, 0, 0, 0] ≠ 2 ^ 64 := by
  refine ⟨?_, ?_, by decide⟩
  · have hup : update_n (new sboxW ivW).state (2 ^ 61) = some (new sboxW ivW).state := by
      simp only [update_n, new, List.getD_cons_zero, List.getD_cons_succ]
      norm_num [Nat.shiftLeft_eq]
    have h1 := process_some_of_update (new sboxW ivW) (new sboxW ivW).state
      (List.replicate (2 ^ 61) 0) (by rw [List.length_replicate]; exact hup)
    rw [runCalls_cons_some _ _ _ _ h1, runCalls, Option.map_some', bufferFeed_keeps_n]
    rfl
  · rw [List.length_replicate]
    norm_num

/-! ## C5: totality below the capacity, abort above it -/

/-- C5 (amended, for the GOST94 engine, with every absorb call shorter than
`2^61` bytes): whenever the total bit count stays below `2^256` the engine
deterministically produces a well-defined 32-byte digest — the empty sequence
included — and whenever the total bit count reaches `2^256` the run aborts
through the single unrecoverable length-overflow panic, so no digest is
returned. -/
theorem gost94_totality_and_overflow (s : SBox) (iv : List Nat) (calls : List (List Nat))
    (hiv : iv.length = 32)
    (hsmall : ∀ c ∈ calls, c.length < 2 ^ 61) :
    (8 * (calls.map List.length).sum < 2 ^ 256 →
      ∃ d, digest (new s iv) calls = some d ∧ d.length = 32) ∧
    (2 ^ 256 ≤ 8 * (calls.map List.length).sum →
      digest (new s iv) calls = none) := by
  constructor
  · intro hlt
    obtain ⟨e', hrun, hwf', _, _⟩ := runCalls_small_some calls (new s iv)
      (WF_new s iv hiv) hsmall (by rw [nVal_new]; omega)
    refine ⟨(fixed_result e').1, ?_, fixed_result_length e' hwf'⟩
    simp [digest, hrun]
  · intro hge
    have hrun := runCalls_overflow calls (new s iv) (WF_new s iv hiv) hsmall
      (by rw [nVal_new]; omega)
    simp [digest, hrun]

/-- Witness for C5 at a concrete three-byte call. -/
theorem gost94_totality_and_overflow_witness :
    (8 * ([[1, 2, 3]].map List.length).sum < 2 ^ 256 →
      ∃ d, digest (new sboxW ivW) [[1, 2, 3]] = some d ∧ d.length = 32) ∧
    (2 ^ 256 ≤ 8 * ([[1, 2, 3]].map List.length).sum →
      digest (new sboxW ivW) [[1, 2, 3]] = none) :=
  gost94_totality_and_overflow sboxW ivW [[1, 2, 3]] (by decide) (by decide)

theorem sum_replicate_nat (n x : Nat) : (List.replicate n x).sum = n * x := by
  induction n with
  | zero => simp
  | succ n ih =>
    rw [List.replicate_succ, List.sum_cons, ih]
    ring

theorem runCalls_bigcall_some (k : Nat) :
    ∀ e : Engine, e.state.n = [0, 0, 0, 0] →
      ∃ e', runCalls e (List.replicate k (List.replicate (2 ^ 61) 0)) = some e' ∧
        e'.state.n = [0, 0, 0, 0] := by
  induction k with
  | zero => intro e h; exact ⟨e, rfl, h⟩
  | succ k ih =>
    intro e h
    have hup : update_n e.state (2 ^ 61) = some e.state := by
      rcases e with ⟨buf, ⟨s', h', n', sig'⟩, h0'⟩
      simp only at h
      subst h
      simp only [update_n, List.getD_cons_zero, List.getD_cons_succ]
      norm_num [Nat.shiftLeft_eq]
    have h1 := process_some_of_update e e.state (List.replicate (2 ^ 61) 0)
      (by rw [List.length_replicate]; exact hup)
    obtain ⟨e', hrun, hn'⟩ := ih (bufferFeed { e with state := e.state } (List.replicate (2 ^ 61) 0))
      (by rw [bufferFeed_keeps_n]; exact h)
    refine ⟨e', ?_, hn'⟩
    rw [List.replicate_succ, runCalls_cons_some _ _ _ _ h1]
    exact hrun

/-- Counterexample to C5 as stated: feeding `2^192 + 1` absorb calls of `2^61`
zero bytes each — more than `2^256 - 1` total message bits — never triggers
the overflow panic, because each call adds `(2^61 << 3) mod 2^64 = 0` to the
counter, and the engine returns a valid digest for the over-length input. -/
theorem gost94_digest_for_overlength_input :
    (digest (new sboxW ivW)
        (List.replicate (2 ^ 192 + 1) (List.replicate (2 ^ 61) 0))).isSome = true ∧
    2 ^ 256 - 1 <
      8 * ((List.replicate (2 ^ 192 + 1)
        (List.replicate (2 ^ 61) (0 : Nat))).map List.length).sum := by
  constructor
  · obtain ⟨e', he, _⟩ := runCalls_bigcall_some (2 ^ 192 + 1) (new sboxW ivW) rfl
    unfold digest
    rw [he, Option.map_some']
    rfl
  · rw [List.map_replicate, List.length_replicate, sum_replicate_nat]
    decide

/-! ## C4 support: chunking invariance for all inputs below `2^61` bytes,
and the length-counter divergence that blocks the unbounded claim -/

theorem fullBlocks_small (l : List Nat) (h : l.length < 32) : fullBlocks l = [] := by
  rw [fullBlocks, dif_neg (by omega)]

theorem bufRemainder_small (l : List Nat) (h : l.length < 32) : bufRemainder l = l := by
  unfold bufRemainder
  rw [Nat.div_eq_of_lt h, Nat.mul_zero, List.drop_zero]

theorem bufRemainder_drop32 (l : List Nat) (h : 32 ≤ l.length) :
    bufRemainder l = bufRemainder (l.drop 32) := by
  unfold bufRemainder
  rw [List.length_drop]
  have harith : 32 * (l.length / 32) = 32 + 32 * ((l.length - 32) / 32) := by omega
  rw [harith, ← List.drop_drop]

theorem fullBlocks_unfold (l : List Nat) (h : 32 ≤ l.length) :
    fullBlocks l = l.take 32 :: fullBlocks (l.drop 32) := by
  rw [fullBlocks, dif_pos h]

theorem fullBlocks_append_split (L : List Nat) : ∀ m : List Nat,
    fullBlocks (L ++ m) = fullBlocks L ++ fullBlocks (bufRemainder L ++ m) ∧
    bufRemainder (L ++ m) = bufRemainder (bufRemainder L ++ m) := by
  intro m
  by_cases h : 32 ≤ L.length
  · have hlen : 32 ≤ (L ++ m).length := by
      rw [List.length_append]
      omega
    have htk : (L ++ m).take 32 = L.take 32 := List.take_append_of_le_length h
    have hdr : (L ++ m).drop 32 = L.drop 32 ++ m := List.drop_append_of_le_length h
    have hrec := fullBlocks_append_split (L.drop 32) m
    constructor
    · rw [fullBlocks_unfold (L ++ m) hlen, htk, hdr, hrec.1, fullBlocks_unfold L h,
        bufRemainder_drop32 L h, List.cons_append]
    · rw [bufRemainder_drop32 (L ++ m) hlen, hdr, hrec.2, bufRemainder_drop32 L h]
  · push_neg at h
    rw [fullBlocks_small L h, bufRemainder_small L h, List.nil_append]
    exact ⟨rfl, rfl⟩
termination_by L.length
decreasing_by simp only [List.length_drop]; omega

theorem process_block_ignores_n (st : State) (nn : List Nat) (m : List Nat) :
    process_block { st with n := nn } m = { process_block st m with n := nn } := by
  simp only [process_block, update_sigma, f, shuffle]

theorem foldl_process_block_ignores_n (blocks : List (List Nat)) :
    ∀ (st : State) (nn : List Nat),
    blocks.foldl process_block { st with n := nn } =
      { blocks.foldl process_block st with n := nn } := by
  induction blocks with
  | nil => intro st nn; rfl
  | cons b bs ih =>
    intro st nn
    rw [List.foldl_cons, List.foldl_cons, process_block_ignores_n, ih]

theorem bufferFeed_append (e : Engine) (i1 i2 : List Nat) :
    bufferFeed (bufferFeed e i1) i2 = bufferFeed e (i1 ++ i2) := by
  simp only [bufferFeed]
  rw [← List.append_assoc, (fullBlocks_append_split (e.buffer ++ i1) i2).1,
    (fullBlocks_append_split (e.buffer ++ i1) i2).2, List.foldl_append]

theorem bufferFeed_nil (e : Engine) (hbuf : e.buffer.length < 32) : bufferFeed e [] = e := by
  simp only [bufferFeed, List.append_nil]
  rw [fullBlocks_small _ hbuf, bufRemainder_small _ hbuf, List.foldl_nil]

theorem bufferFeed_set_n (e : Engine) (input nn nn' : List Nat) :
    { bufferFeed { e with state := { e.state with n := nn } } input with
        state :=
          { (bufferFeed { e with state := { e.state with n := nn } } input).state with
              n := nn' } } =
      bufferFeed { e with state := { e.state with n := nn' } } input := by
  simp only [bufferFeed]
  rw [foldl_process_block_ignores_n (fullBlocks (e.buffer ++ input)) e.state nn,
    foldl_process_block_ignores_n (fullBlocks (e.buffer ++ input)) e.state nn']

theorem update_n_zero (st : State) (w0 w1 w2 w3 : Nat) (hn : st.n = [w0, w1, w2, w3])
    (hb0 : w0 < 2 ^ 64) : update_n st 0 = some st := by
  have h0 : ((0 % 2 ^ 64) <<< 3) % 2 ^ 64 = 0 := by norm_num [Nat.shiftLeft_eq]
  simp only [update_n, hn, List.getD_cons_zero, List.getD_cons_succ, h0, Nat.add_zero]
  rw [if_pos hb0, Nat.mod_eq_of_lt hb0, ← hn]

theorem runCalls_join (chunks : List (List Nat)) :
    ∀ e : Engine, WF e →
      chunks.flatten.length < 2 ^ 61 →
      nVal e.state.n + 8 * chunks.flatten.length < 2 ^ 256 →
      runCalls e chunks = process e chunks.flatten := by
  induction chunks with
  | nil =>
    intro e hwf _ _
    obtain ⟨hbuf, _, ⟨w0, w1, w2, w3, hn, hb0, _, _, _⟩, _⟩ := hwf
    have hup : update_n e.state ([] : List Nat).length = some e.state :=
      update_n_zero e.state w0 w1 w2 w3 hn hb0
    have hp := process_some_of_update e e.state ([] : List Nat) hup
    rw [List.flatten_nil, runCalls, hp, bufferFeed_nil _ hbuf]
  | cons c cs ih =>
    intro e hwf hsm hcap
    obtain ⟨hbuf, hh, ⟨w0, w1, w2, w3, hn, hb0, hb1, hb2, hb3⟩, hsig⟩ := hwf
    rw [List.flatten_cons] at hsm hcap ⊢
    rw [List.length_append] at hsm hcap
    rw [hn] at hcap
    have hc61 : c.length < 2 ^ 61 := by omega
    have hF61 : cs.flatten.length < 2 ^ 61 := by omega
    have hVc : nVal [w0, w1, w2, w3] + 8 * c.length < 2 ^ 256 := by
      simp only [nVal, List.getD_cons_zero, List.getD_cons_succ] at hcap ⊢
      omega
    have hup := update_n_lt e.state w0 w1 w2 w3 c.length hn hb0 hb1 hb2 hb3 hc61 hVc
    have hp := process_some_of_update e _ c hup
    rw [runCalls_cons_some _ _ _ _ hp]
    obtain ⟨v0, v1, v2, v3, hvn, hv0, hv1, hv2, hv3⟩ :=
      nWords_bounds (nVal [w0, w1, w2, w3] + 8 * c.length)
    have hwf1 := bufferFeed_WF
      { e with state := { e.state with n := nWords (nVal [w0, w1, w2, w3] + 8 * c.length) } }
      c hbuf hh hsig
    have he1n : (bufferFeed
        { e with state := { e.state with n := nWords (nVal [w0, w1, w2, w3] + 8 * c.length) } }
        c).state.n = nWords (nVal [w0, w1, w2, w3] + 8 * c.length) := hwf1.2.2.2
    have hwfe1 : WF (bufferFeed
        { e with state := { e.state with n := nWords (nVal [w0, w1, w2, w3] + 8 * c.length) } }
        c) :=
      ⟨hwf1.1, hwf1.2.1, ⟨v0, v1, v2, v3, by rw [he1n, hvn], hv0, hv1, hv2, hv3⟩, hwf1.2.2.1⟩
    have hval1 : nVal (bufferFeed
        { e with state := { e.state with n := nWords (nVal [w0, w1, w2, w3] + 8 * c.length) } }
        c).state.n = nVal [w0, w1, w2, w3] + 8 * c.length := by
      rw [he1n, nVal_nWords _ hVc]
    have hihr := ih (bufferFeed
        { e with state := { e.state with n := nWords (nVal [w0, w1, w2, w3] + 8 * c.length) } }
        c) hwfe1 hF61 (by rw [hval1]; omega)
    rw [hihr]
    have hsum61 : (c ++ cs.flatten).length < 2 ^ 61 := by rw [List.length_append]; omega
    have hupW := update_n_lt e.state w0 w1 w2 w3 (c ++ cs.flatten).length hn hb0 hb1 hb2 hb3
      hsum61 (by rw [List.length_append]; omega)
    have hpW := process_some_of_update e _ (c ++ cs.flatten) hupW
    rw [hpW]
    have he1nlist : (bufferFeed
        { e with state := { e.state with n := nWords (nVal [w0, w1, w2, w3] + 8 * c.length) } }
        c).state.n = [v0, v1, v2, v3] := by rw [he1n, hvn]
    have hVF : nVal [v0, v1, v2, v3] + 8 * cs.flatten.length < 2 ^ 256 := by
      rw [← hvn, nVal_nWords _ hVc]
      omega
    have hupF := update_n_lt (bufferFeed
        { e with state := { e.state with n := nWords (nVal [w0, w1, w2, w3] + 8 * c.length) } }
        c).state v0 v1 v2 v3 cs.flatten.length he1nlist hv0 hv1 hv2 hv3 hF61 hVF
    have hpF := process_some_of_update _ _ cs.flatten hupF
    rw [hpF]
    have harith1 : nVal [v0, v1, v2, v3] + 8 * cs.flatten.length =
        nVal [w0, w1, w2, w3] + 8 * (c ++ cs.flatten).length := by
      rw [← hvn, nVal_nWords _ hVc, List.length_append]
      ring
    rw [harith1, ← bufferFeed_append, bufferFeed_set_n]

/-- Chunking invariance for all physically realizable inputs: for every byte
sequence of fewer than `2^61` bytes and every partition of it into consecutive
chunks, absorbing the chunks one call at a time and finalizing produces the
same digest as absorbing the whole sequence in a single call. -/
theorem gost94_chunking_invariance_bounded (s : SBox) (iv : List Nat) (hiv : iv.length = 32)
    (chunks : List (List Nat)) (hS : chunks.flatten.length < 2 ^ 61) :
    digest (new s iv) chunks = digest (new s iv) [chunks.flatten] := by
  have hwf := WF_new s iv hiv
  have hcap : nVal (new s iv).state.n + 8 * chunks.flatten.length < 2 ^ 256 := by
    rw [nVal_new]
    omega
  have h1 := runCalls_join chunks (new s iv) hwf hS hcap
  obtain ⟨hbuf, hh, ⟨w0, w1, w2, w3, hn, hb0, hb1, hb2, hb3⟩, hsig⟩ := hwf
  have hup := update_n_lt (new s iv).state w0 w1 w2 w3 chunks.flatten.length hn
    hb0 hb1 hb2 hb3 hS (by rw [← hn]; exact hcap)
  have hp := process_some_of_update (new s iv) _ chunks.flatten hup
  have h2 : runCalls (new s iv) [chunks.flatten] = process (new s iv) chunks.flatten := by
    rw [runCalls_cons_some _ _ _ _ hp, runCalls, hp]
  unfold digest
  rw [h1, h2]

/-- The length-counter divergence that defeats the unbounded chunking claim:
absorbing `2^61` zero bytes as two calls of `2^60` bytes leaves the length
counter at `2^64` (correct), while absorbing the same bytes in one call leaves
it at zero, because `update_n` discards the high bits of `8 * len`. -/
theorem gost94_chunking_n_divergence :
    (runCalls (new sboxW ivW) [List.replicate (2 ^ 60) 0, List.replicate (2 ^ 60) 0]).map
        (fun e => e.state.n) = some [0, 1, 0, 0] ∧
    (runCalls (new sboxW ivW)
        [List.replicate (2 ^ 60) 0 ++ List.replicate (2 ^ 60) 0]).map
        (fun e => e.state.n) = some [0, 0, 0, 0] := by
  constructor
  · have hup1 : update_n (new sboxW ivW).state (List.replicate (2 ^ 60) (0 : Nat)).length =
        some { (new sboxW ivW).state with n := [2 ^ 63, 0, 0, 0] } := by
      rw [List.length_replicate]
      simp only [update_n, new, List.getD_cons_zero, List.getD_cons_succ]
      norm_num [Nat.shiftLeft_eq]
    have hp1 := process_some_of_update (new sboxW ivW) _ (List.replicate (2 ^ 60) 0) hup1
    rw [runCalls_cons_some _ _ _ _ hp1]
    have he1n : (bufferFeed
        { new sboxW ivW with state := { (new sboxW ivW).state with n := [2 ^ 63, 0, 0, 0] } }
        (List.replicate (2 ^ 60) 0)).state.n = [2 ^ 63, 0, 0, 0] :=
      bufferFeed_keeps_n _ _
    have hup2 : update_n (bufferFeed
        { new sboxW ivW with state := { (new sboxW ivW).state with n := [2 ^ 63, 0, 0, 0] } }
        (List.replicate (2 ^ 60) 0)).state (List.replicate (2 ^ 60) (0 : Nat)).length =
        some { (bufferFeed
          { new sboxW ivW with state := { (new sboxW ivW).state with n := [2 ^ 63, 0, 0, 0] } }
          (List.replicate (2 ^ 60) 0)).state with n := [0, 1, 0, 0] } := by
      rw [List.length_replicate]
      simp only [update_n, he1n, List.getD_cons_zero, List.getD_cons_succ]
      norm_num [Nat.shiftLeft_eq, Nat.shiftRight_eq_div_pow]
    have hp2 := process_some_of_update _ _ (List.replicate (2 ^ 60) 0) hup2
    rw [runCalls_cons_some _ _ _ _ hp2, runCalls, Option.map_some', bufferFeed_keeps_n]
  · have hlen : (List.replicate (2 ^ 60) (0 : Nat) ++ List.replicate (2 ^ 60) (0 : Nat)).length
        = 2 ^ 61 := by
      rw [List.length_append, List.length_replicate]
      norm_num
    have hup : update_n (new sboxW ivW).state
        (List.replicate (2 ^ 60) (0 : Nat) ++ List.replicate (2 ^ 60) (0 : Nat)).length =
        some (new sboxW ivW).state := by
      rw [hlen]
      simp only [update_n, new, List.getD_cons_zero, List.getD_cons_succ]
      norm_num [Nat.shiftLeft_eq]
    have hp := process_some_of_update (new sboxW ivW) _ _ hup
    rw [runCalls_cons_some _ _ _ _ hp, runCalls, Option.map_some', bufferFeed_keeps_n]
    rfl

end Gost94

/-! ## C9: SHA-3 lane packing is endianness-portable -/

namespace Sha3

theorem readLe_leBytes (k : Nat) : ∀ w, readLe (leBytes k w) = w % 2 ^ (8 * k) := by
  induction k with
  | zero =>
    intro w
    simp [leBytes, readLe, Nat.mod_one]
  | succ k ih =>
    intro w
    have h1 : (2 : Nat) ^ (8 * (k + 1)) = 256 * 2 ^ (8 * k) := by
      rw [Nat.mul_add, Nat.pow_add]
      ring
    simp only [leBytes, readLe, ih (w / 256)]
    rw [h1, Nat.mod_mul]

theorem xor_limb (x y u v : Nat) (hx : x < 256) (hy : y < 256) :
    (x + 256 * u) ^^^ (y + 256 * v) = (x ^^^ y) + 256 * (u ^^^ v) := by
  have h256 : (256 : Nat) = 2 ^ 8 := by norm_num
  apply Nat.eq_of_testBit_eq
  intro i
  rw [Nat.add_comm x, Nat.add_comm y, Nat.add_comm (x ^^^ y), h256]
  rw [Nat.testBit_xor,
    Nat.testBit_mul_pow_two_add _ hx, Nat.testBit_mul_pow_two_add _ hy,
    Nat.testBit_mul_pow_two_add _ (Nat.xor_lt_two_pow hx hy)]
  by_cases h : i < 8 <;> simp [h, Nat.testBit_xor]

theorem readLe_zipWith_xor (k : Nat) : ∀ (w : Nat) (bs : List Nat), w < 2 ^ (8 * k) →
    bs.length = k → (∀ b ∈ bs, b < 256) →
    readLe (List.zipWith (fun u v => u ^^^ v) (leBytes k w) bs) = w ^^^ readLe bs := by
  induction k with
  | zero =>
    intro w bs hw hlen _
    have hbs : bs = [] := List.eq_nil_of_length_eq_zero hlen
    have hw0 : w = 0 := by
      have h1 : (2 : Nat) ^ (8 * 0) = 1 := by norm_num
      rw [h1] at hw
      omega
    subst hbs
    subst hw0
    simp [leBytes, readLe]
  | succ k ih =>
    intro w bs hw hlen hb
    cases bs with
    | nil => exact absurd hlen (by simp)
    | cons b bs' =>
      have hb0 : b < 256 := hb b (List.mem_cons_self _ _)
      have hb' : ∀ u ∈ bs', u < 256 := fun u hu => hb u (List.mem_cons_of_mem _ hu)
      have hlen' : bs'.length = k := by simpa using hlen
      have hdiv : w / 256 < 2 ^ (8 * k) := by
        have h1 : (2 : Nat) ^ (8 * (k + 1)) = 256 * 2 ^ (8 * k) := by
          rw [Nat.mul_add, Nat.pow_add]
          ring
        rw [h1] at hw
        omega
      simp only [leBytes, List.zipWith_cons_cons, readLe]
      rw [ih (w / 256) bs' hdiv hlen' hb']
      rw [← xor_limb (w % 256) b (w / 256) (readLe bs') (Nat.mod_lt _ (by norm_num)) hb0]
      rw [Nat.mod_add_div]

theorem toLeBytes_cons (w : Nat) (ws : List Nat) :
    toLeBytes (w :: ws) = leBytes 8 w ++ toLeBytes ws := by
  simp [toLeBytes]

theorem bytesToWordsLe_append8 (c rest : List Nat) (hc : c.length = 8) :
    bytesToWordsLe (c ++ rest) = readLe c :: bytesToWordsLe rest := by
  have hne : c ++ rest ≠ [] := by
    intro h
    rcases List.append_eq_nil.mp h with ⟨h1, _⟩
    rw [h1] at hc
    simp at hc
  rw [bytesToWordsLe, dif_neg hne, List.take_left' hc, List.drop_left' hc]

theorem bytesToWordsLe_toLeBytes (ws : List Nat) (hw : ∀ w ∈ ws, w < 2 ^ 64) :
    bytesToWordsLe (toLeBytes ws) = ws := by
  induction ws with
  | nil => simp [toLeBytes, bytesToWordsLe]
  | cons w ws' ih =>
    have hw0 : w < 2 ^ 64 := hw w (List.mem_cons_self _ _)
    have hw' : ∀ u ∈ ws', u < 2 ^ 64 := fun u hu => hw u (List.mem_cons_of_mem _ hu)
    rw [toLeBytes_cons, bytesToWordsLe_append8 _ _ (Gost94.leBytes_length 8 w), ih hw']
    have h64 : readLe (leBytes 8 w) = w := by
      rw [readLe_leBytes]
      have h1 : (2 : Nat) ^ (8 * 8) = 2 ^ 64 := by norm_num
      rw [h1]
      exact Nat.mod_eq_of_lt hw0
    rw [h64]

theorem xorLanes_agree_aux (ws : List Nat) : ∀ blk : List Nat,
    (∀ w ∈ ws, w < 2 ^ 64) → (∀ b ∈ blk, b < 256) →
    blk.length % 8 = 0 → blk.length ≤ 8 * ws.length →
    bytesToWordsLe (List.zipWith (fun u v => u ^^^ v) (toLeBytes ws) blk ++
        (toLeBytes ws).drop blk.length) =
      List.zipWith (fun u v => u ^^^ v) (ws.take (blk.length / 8)) (bytesToWordsLe blk) ++
        ws.drop (blk.length / 8) := by
  induction ws with
  | nil =>
    intro blk _ _ _ hle
    have hblk : blk = [] := by
      simp only [List.length_nil, Nat.mul_zero, Nat.le_zero] at hle
      exact List.eq_nil_of_length_eq_zero hle
    subst hblk
    simp [toLeBytes, bytesToWordsLe]
  | cons w ws' ih =>
    intro blk hw hb hmod hle
    by_cases hnil : blk = []
    · subst hnil
      simp only [List.zipWith_nil_right, List.nil_append, List.drop_zero, List.length_nil,
        Nat.zero_div, List.take_zero, List.zipWith_nil_left]
      exact bytesToWordsLe_toLeBytes (w :: ws') hw
    · have hlenpos : blk.length ≠ 0 := fun h => hnil (List.eq_nil_of_length_eq_zero h)
      have hlen8 : 8 ≤ blk.length := by omega
      obtain ⟨c, rest, rfl, hc8⟩ : ∃ c rest, blk = c ++ rest ∧ c.length = 8 :=
        ⟨blk.take 8, blk.drop 8, (List.take_append_drop 8 blk).symm,
          by rw [List.length_take]; omega⟩
      have hw0 : w < 2 ^ 64 := hw w (List.mem_cons_self _ _)
      have hw' : ∀ u ∈ ws', u < 2 ^ 64 := fun u hu => hw u (List.mem_cons_of_mem _ hu)
      have hbc : ∀ b ∈ c, b < 256 := fun b hb' => hb b (List.mem_append_left _ hb')
      have hbr : ∀ b ∈ rest, b < 256 := fun b hb' => hb b (List.mem_append_right _ hb')
      have hLB : (leBytes 8 w).length = 8 := Gost94.leBytes_length 8 w
      have hlenapp : (c ++ rest).length = 8 + rest.length := by
        rw [List.length_append, hc8]
      have hmodr : rest.length % 8 = 0 := by
        rw [hlenapp] at hmod
        omega
      have hler : rest.length ≤ 8 * ws'.length := by
        rw [hlenapp] at hle
        simp only [List.length_cons] at hle
        omega
      have hdiv : (c ++ rest).length / 8 = rest.length / 8 + 1 := by
        rw [hlenapp]
        omega
      -- left side
      rw [toLeBytes_cons]
      rw [List.zipWith_append _ _ _ _ _ (by rw [hLB, hc8])]
      have hdropside : (leBytes 8 w ++ toLeBytes ws').drop (c ++ rest).length =
          (toLeBytes ws').drop rest.length := by
        rw [hlenapp, ← List.drop_drop, List.drop_left' hLB]
      rw [hdropside, List.append_assoc]
      have hz8 : (List.zipWith (fun u v => u ^^^ v) (leBytes 8 w) c).length = 8 := by
        rw [List.length_zipWith, hLB, hc8]
        omega
      rw [bytesToWordsLe_append8 _ _ hz8]
      have hread : readLe (List.zipWith (fun u v => u ^^^ v) (leBytes 8 w) c) =
          w ^^^ readLe c := by
        refine readLe_zipWith_xor 8 w c ?_ hc8 hbc
        have h1 : (2 : Nat) ^ (8 * 8) = 2 ^ 64 := by norm_num
        rw [h1]
        exact hw0
      rw [hread, ih rest hw' hbr hmodr hler]
      -- right side
      rw [bytesToWordsLe_append8 _ _ hc8, hdiv, List.take_succ_cons, List.zipWith_cons_cons]
      rw [show (rest.length / 8 + 1) = rest.length / 8 + 1 from rfl]
      rfl

/-- C9: for every block whose length is a multiple of 8 and at most the
maximum rate, the little-endian fast path of `absorb_block` (xoring the block
bytes directly into the byte view of the lane array) produces the same
post-xor lane state as the explicit path (unpacking the block as little-endian
64-bit words and xoring word-wise), and `as_bytes` serializes both to the same
little-endian wire bytes, so digests are identical on either platform. -/
theorem sha3_endianness_portable (state blk : List Nat)
    (hplen : state.length = PLEN) (hw : ∀ w ∈ state, w < 2 ^ 64)
    (hb : ∀ b ∈ blk, b < 256) (hmod : blk.length % 8 = 0) (hrate : blk.length ≤ 168) :
    xorLanesLE state blk = xorLanesBE state blk ∧
    as_bytes (xorLanesLE state blk) = as_bytes (xorLanesBE state blk) := by
  have hle : blk.length ≤ 8 * state.length := by
    rw [hplen]
    simp only [PLEN]
    omega
  have h := xorLanes_agree_aux state blk hw hb hmod hle
  have hmain : xorLanesLE state blk = xorLanesBE state blk := h
  exact ⟨hmain, by rw [hmain]⟩

/-- Witness for C9 at a concrete 25-lane state and 16-byte block. -/
theorem sha3_endianness_portable_witness :
    xorLanesLE (List.range 25) (List.range 16) = xorLanesBE (List.range 25) (List.range 16) ∧
    as_bytes (xorLanesLE (List.range 25) (List.range 16)) =
      as_bytes (xorLanesBE (List.range 25) (List.range 16)) :=
  sha3_endianness_portable (List.range 25) (List.range 16) (by decide) (by decide)
    (by decide) (by decide) (by decide)

end Sha3

end HashSpec
